import Mathlib

/-!
Verification of the checkers rules engine in `src/game.py` (class `CheckersGame`).

The board is the 8×8 numpy integer grid, stored row-major as a list of 64
naturals (0 = empty, 1 = black man, 2 = black king, 3 = white man,
4 = white king); `current_player` is 1 for Black and -1 for White, exactly as
in the source.  Every method of the class is translated below into a pure
Lean function with the same structure; positions are pairs of `Int` because
the Python code freely forms out-of-range coordinates before bounds-checking
them with `_is_valid_position`.
-/

namespace Checkers

abbrev Pos := Int × Int

abbrev Board := List Nat

abbrev Move := Pos × List Pos

/-- Row-major index of a cell, `board[row][col]` on an 8×8 grid. -/
def posIdx (row col : Int) : Nat := (row * 8 + col).toNat

/-- Read `self.board[row][col]`.  All reads performed by the source are
bounds-checked before access, so the default 0 is never relevant on the
calls the program makes. -/
def getCell (b : Board) (row col : Int) : Nat := b.getD (posIdx row col) 0

/-- Write `self.board[row][col] = v`. -/
def setCell (b : Board) (row col : Int) (v : Nat) : Board := b.set (posIdx row col) v

/-- The 64 cells in the order the double loop `for row in range(8): for col in
range(8)` visits them. -/
def allPositions : List Pos :=
  (List.range 8).flatMap (fun row => (List.range 8).map (fun col => ((row : Int), (col : Int))))

/-- The engine state: `self.board` and `self.current_player`. -/
structure GameState where
  board : Board
  current_player : Int
deriving DecidableEq, Repr

/-- `_is_valid_position`: `0 <= row < 8 and 0 <= col < 8`. -/
def is_valid_position (row col : Int) : Bool :=
  decide (0 ≤ row) && decide (row < 8) && decide (0 ≤ col) && decide (col < 8)

/-- `_is_current_players_piece`. -/
def is_current_players_piece (cp : Int) (piece : Nat) : Bool :=
  if cp == 1 then piece == 1 || piece == 2 else piece == 3 || piece == 4

/-- `_is_opponent_piece`. -/
def is_opponent_piece (cp : Int) (piece : Nat) : Bool :=
  if cp == 1 then piece == 3 || piece == 4 else piece == 1 || piece == 2

/-- The `directions` list built at the top of `_get_normal_moves`, in the exact
order the three `if` statements extend it. -/
def normal_directions (piece : Nat) : List (Int × Int) :=
  (if piece == 1 || piece == 2 then [(1, -1), (1, 1)] else []) ++
  (if piece == 3 || piece == 4 then [(-1, -1), (-1, 1)] else []) ++
  (if piece == 2 || piece == 4 then
    (if piece == 2 then [(-1, -1), (-1, 1)] else [(1, -1), (1, 1)]) else [])

/-- `_get_normal_moves`: the destinations appended by the loop over
`directions`, in order. -/
def get_normal_moves (b : Board) (row col : Int) : List Pos :=
  (normal_directions (getCell b row col)).filterMap (fun d =>
    if is_valid_position (row + d.1) (col + d.2) && (getCell b (row + d.1) (col + d.2) == 0)
    then some (row + d.1, col + d.2) else none)

/-- The `directions` list built at the top of `_find_capture_sequences`. -/
def capture_directions (piece : Nat) : List (Int × Int) :=
  if piece == 2 || piece == 4 then [(2, -2), (2, 2), (-2, -2), (-2, 2)]
  else if piece == 1 then [(2, -2), (2, 2)]
  else if piece == 3 then [(-2, -2), (-2, 2)]
  else []

/-- The admissibility test of one jump in `_find_capture_sequences`, in the
source's evaluation order: landing square not in `visited`, on the board and
empty, and the jumped-over midpoint (`row + dx//2, col + dy//2`, Python floor
division) holds an opponent piece. -/
def stepOK (b : Board) (cp : Int) (row col : Int) (visited : List Pos) (d : Int × Int) : Bool :=
  decide ((row + d.1, col + d.2) ∉ visited) &&
  is_valid_position (row + d.1) (col + d.2) &&
  (getCell b (row + d.1) (col + d.2) == 0) &&
  is_opponent_piece cp (getCell b (row + d.1.fdiv 2) (col + d.2.fdiv 2))

/-- One level of `_find_capture_sequences`, parametrised by the recursive
call.  `piece` and `directions` are read from the board at entry; every
admissible jump recurses with the landing square appended to the sequence and
added to `visited` (the Python `visited.add` / `visited.remove` bracketing
means each sibling iteration sees the original set, which is what passing
`(…) :: visited` to the recursive call only gives); if no jump was admissible
and the sequence is non-empty it is emitted. -/
def fcs_step (rec : Board → Int → Int → Int → List Pos → List Pos → List (List Pos))
    (b : Board) (cp : Int) (row col : Int) (current_sequence visited : List Pos) :
    List (List Pos) :=
  let admissible := (capture_directions (getCell b row col)).filter (stepOK b cp row col visited)
  if admissible.isEmpty then
    if current_sequence.isEmpty then [] else [current_sequence]
  else
    admissible.flatMap (fun d =>
      rec b cp (row + d.1) (col + d.2)
        (current_sequence ++ [(row + d.1, col + d.2)])
        ((row + d.1, col + d.2) :: visited))

/-- `_find_capture_sequences`, with an explicit recursion budget so the
definition is structural.  Each recursive call of the source adds a distinct
valid landing square to `visited`, so its depth can never exceed 64; the fuel
65 therefore never runs out (`find_capture_sequences_fuel_irrel` below proves
the budget immaterial from 2 on). -/
def find_capture_sequences_fuel :
    Nat → Board → Int → Int → Int → List Pos → List Pos → List (List Pos)
  | 0 => fun _ _ _ _ _ _ => []
  | fuel + 1 => fcs_step (find_capture_sequences_fuel fuel)

/-- `_find_capture_sequences` as called by the program. -/
def find_capture_sequences (b : Board) (cp : Int) (row col : Int)
    (current_sequence visited : List Pos) : List (List Pos) :=
  find_capture_sequences_fuel 65 b cp row col current_sequence visited

/-- `_get_capture_moves`: run the search from an empty sequence and an empty
visited set. -/
def get_capture_moves (b : Board) (cp : Int) (row col : Int) : List (List Pos) :=
  find_capture_sequences b cp row col [] []

/-- The `capture_moves` list of `get_valid_moves`: the single scan over the
board appends, for every piece of the current player whose capture search is
non-empty, one `(start, chain)` entry per chain. -/
def captureMovesList (g : GameState) : List Move :=
  allPositions.flatMap (fun p =>
    if is_current_players_piece g.current_player (getCell g.board p.1 p.2) then
      (get_capture_moves g.board g.current_player p.1 p.2).map (fun caps => (p, caps))
    else [])

/-- The `moves` list of `get_valid_moves`: the same scan appends, for every
piece of the current player whose capture search came back empty, one
singleton move per normal destination.  (The Python loop fills `capture_moves`
and `moves` in one pass; since each visited piece contributes to exactly one
of the two lists, two passes produce the same two lists in the same order.) -/
def normalMovesList (g : GameState) : List Move :=
  allPositions.flatMap (fun p =>
    if is_current_players_piece g.current_player (getCell g.board p.1 p.2) &&
       (get_capture_moves g.board g.current_player p.1 p.2).isEmpty then
      (get_normal_moves g.board p.1 p.2).map (fun q => (p, [q]))
    else [])

/-- `get_valid_moves`: `capture_moves if capture_moves else moves`. -/
def get_valid_moves (g : GameState) : List Move :=
  if (captureMovesList g).isEmpty then normalMovesList g else captureMovesList g

/-- The kinging test of `make_move`: performed once, on the final square of
the sequence, against the piece read from the start square. -/
def promote_piece (piece : Nat) (row : Int) : Nat :=
  if piece == 1 && row == 7 then 2
  else if piece == 3 && row == 0 then 4
  else piece

/-- The `for i, (new_row, new_col) in enumerate(moves)` loop of `make_move`:
steps whose row delta has magnitude 2 clear the midpoint
`((new_row + row) // 2, (new_col + col) // 2)`; only the final iteration
writes the (possibly kinged) piece. -/
def make_move_loop (b : Board) (piece : Nat) (row col : Int) : List Pos → Board
  | [] => b
  | (nr, nc) :: rest =>
    let b1 := if (nr - row).natAbs == 2
      then setCell b ((nr + row).fdiv 2) ((nc + col).fdiv 2) 0
      else b
    match rest with
    | [] => setCell b1 nr nc (promote_piece piece nr)
    | _ :: _ => make_move_loop b1 piece nr nc rest

/-- `make_move`: read the piece at `start_pos`, clear the start square, walk
the sequence, flip `current_player`.  The source performs no legality check
whatsoever. -/
def make_move (g : GameState) (start : Pos) (moves : List Pos) : GameState :=
  { board := make_move_loop (setCell g.board start.1 start.2 0)
      (getCell g.board start.1 start.2) start.1 start.2 moves
    current_player := g.current_player * (-1) }

/-- `is_game_over`: `len(self.get_valid_moves()) == 0`. -/
def is_game_over (g : GameState) : Bool := (get_valid_moves g).length == 0

/-- `get_winner`: `None` while the game is running, else the previous player. -/
def get_winner (g : GameState) : Option Int :=
  if !(is_game_over g) then none else some (-g.current_player)

/-- `get_state` executes `return self.board.deepcopy()`.  `numpy.ndarray` has
no attribute `deepcopy` (the library offers `copy()`; only the copy-protocol
hook `__deepcopy__` exists), so the attribute lookup raises `AttributeError`
on every call, before any value is produced.  The raising call is embedded as
an `Except.error`. -/
def get_state (_g : GameState) : Except String Board :=
  Except.error "AttributeError: ndarray object has no attribute deepcopy"

/-- `_initialize_board`: black men on the odd-parity squares of rows 0-2,
white men on the odd-parity squares of rows 5-7, mirroring the two Python
loops over a zero-filled 8×8 grid. -/
def initial_board : Board :=
  let b1 := (List.range 3).foldl (fun b row =>
    (List.range 8).foldl (fun b col =>
      if ((row : Int) + (col : Int)) % 2 == 1 then setCell b (row : Int) (col : Int) 1 else b) b)
    (List.replicate 64 0)
  (List.range' 5 3).foldl (fun b row =>
    (List.range 8).foldl (fun b col =>
      if ((row : Int) + (col : Int)) % 2 == 1 then setCell b (row : Int) (col : Int) 3 else b) b) b1

/-- The state `__init__` produces: standard layout, Black to move. -/
def initState : GameState := { board := initial_board, current_player := 1 }

/-- The step pairs (previous square, next square) of a move sequence. -/
def stepPairs (start : Pos) (dests : List Pos) : List (Pos × Pos) :=
  (start :: dests).zip dests

/-- Steps of a move whose row delta has magnitude 2 (the steps `make_move`
treats as captures). -/
def captureSteps (start : Pos) (dests : List Pos) : List (Pos × Pos) :=
  (stepPairs start dests).filter (fun s => (s.2.1 - s.1.1).natAbs == 2)

/-- The number of capture steps of a move. -/
def captureStepCount (start : Pos) (dests : List Pos) : Nat :=
  (captureSteps start dests).length

/-- The midpoint squares `make_move` clears for a given move, computed with
the same floor divisions the source uses. -/
def capturedSquares (start : Pos) (dests : List Pos) : List Pos :=
  (captureSteps start dests).map (fun s => ((s.2.1 + s.1.1).fdiv 2, (s.2.2 + s.1.2).fdiv 2))

/-- A move all of whose steps are two-square jumps (a capture chain). -/
def is_capture_move (m : Move) : Bool :=
  !m.2.isEmpty && (stepPairs m.1 m.2).all (fun s => (s.2.1 - s.1.1).natAbs == 2)

/-- A simple move: a single one-square diagonal step. -/
def is_simple_move (m : Move) : Bool :=
  (m.2.length == 1) && (stepPairs m.1 m.2).all (fun s => (s.2.1 - s.1.1).natAbs == 1)

/-- Number of occupied squares of a board. -/
def countPieces (b : Board) : Nat :=
  (allPositions.filter (fun p => decide (getCell b p.1 p.2 ≠ 0))).length

/-- Every even-parity square is empty (the dark-square invariant of the spec). -/
def dark_squares_only (b : Board) : Prop :=
  ∀ p ∈ allPositions, (p.1 + p.2) % 2 = 0 → getCell b p.1 p.2 = 0

/-- Board used for the two-jump example of the spec: a black man at (4,3),
white men at (5,4) and (5,6), everything else empty, Black to move. -/
def board_c1 : Board :=
  setCell (setCell (setCell (List.replicate 64 0) 4 3 1) 5 4 3) 5 6 3

/-- The engine state for `board_c1`. -/
def state_c1 : GameState := { board := board_c1, current_player := 1 }

/-- Board with a single black man one step away from the crowning row. -/
def board_promo : Board := setCell (List.replicate 64 0) 6 2 1

/-- The engine state for `board_promo`, Black to move. -/
def state_promo : GameState := { board := board_promo, current_player := 1 }

/-- What membership in the `moves` list of `get_valid_moves` guarantees: a
one-square diagonal step of a current-player piece onto an empty on-board
square. -/
def SimpleMoveSpec (g : GameState) (m : Move) : Prop :=
  ∃ r c dr dc : Int, m = ((r, c), [(r + dr, c + dc)]) ∧ (r, c) ∈ allPositions ∧
    (r + dr, c + dc) ∈ allPositions ∧ dr.natAbs = 1 ∧ dc.natAbs = 1 ∧
    is_current_players_piece g.current_player (getCell g.board r c) = true ∧
    getCell g.board (r + dr) (c + dc) = 0

/-- What membership in the `capture_moves` list of `get_valid_moves`
guarantees: a two-square diagonal jump of a current-player piece onto an
empty on-board square, over an opponent midpoint. -/
def CaptureMoveSpec (g : GameState) (m : Move) : Prop :=
  ∃ r c dx dy : Int, m = ((r, c), [(r + dx, c + dy)]) ∧ (r, c) ∈ allPositions ∧
    (r + dx, c + dy) ∈ allPositions ∧ dx.natAbs = 2 ∧ dy.natAbs = 2 ∧
    is_current_players_piece g.current_player (getCell g.board r c) = true ∧
    getCell g.board (r + dx) (c + dy) = 0 ∧
    (r + dx.fdiv 2, c + dy.fdiv 2) ∈ allPositions ∧
    is_opponent_piece g.current_player (getCell g.board (r + dx.fdiv 2) (c + dy.fdiv 2)) = true

/-- One level of `_find_capture_sequences` with the board threaded through
the computation.  The Python method reads but never writes `self.board`; to
state that as a theorem rather than bake it into the type, this variant
passes the board along every recursive call (in the order the mutation-free
source would see it) and returns the board it finished with.  `piece` and the
direction list come from the board at entry, each loop iteration tests
admissibility against the board current at that iteration, and the
`found_capture` flag mirrors the source. -/
def fcs_st_iter
    (rec : Board → Int → Int → Int → List Pos → List Pos → List (List Pos) × Board)
    (cp : Int) (row col : Int) (current_sequence visited : List Pos)
    (acc : List (List Pos) × Board × Bool) (d : Int × Int) :
    List (List Pos) × Board × Bool :=
  if stepOK acc.2.1 cp row col visited d then
    let r := rec acc.2.1 cp (row + d.1) (col + d.2)
      (current_sequence ++ [(row + d.1, col + d.2)])
      ((row + d.1, col + d.2) :: visited)
    (acc.1 ++ r.1, r.2, true)
  else acc

def fcs_st_step
    (rec : Board → Int → Int → Int → List Pos → List Pos → List (List Pos) × Board)
    (b : Board) (cp : Int) (row col : Int) (current_sequence visited : List Pos) :
    List (List Pos) × Board :=
  let res := (capture_directions (getCell b row col)).foldl
    (fcs_st_iter rec cp row col current_sequence visited) ([], b, false)
  if res.2.2 then (res.1, res.2.1)
  else if current_sequence.isEmpty then (res.1, res.2.1)
  else (res.1 ++ [current_sequence], res.2.1)

/-- Fuelled board-threaded `_find_capture_sequences` (see `fcs_st_step`). -/
def find_capture_sequences_st_fuel :
    Nat → Board → Int → Int → Int → List Pos → List Pos → List (List Pos) × Board
  | 0 => fun b _ _ _ _ _ => ([], b)
  | fuel + 1 => fcs_st_step (find_capture_sequences_st_fuel fuel)

/-- Board-threaded `_find_capture_sequences` at the program's call budget. -/
def find_capture_sequences_st (b : Board) (cp : Int) (row col : Int)
    (current_sequence visited : List Pos) : List (List Pos) × Board :=
  find_capture_sequences_st_fuel 65 b cp row col current_sequence visited

/-- `get_valid_moves` with the engine state threaded through the scan: each
loop iteration reads the piece from the board current at that iteration,
runs the (board-threaded) capture search, and passes the board it got back
to the rest of the loop; the returned state is what the engine holds after
the call. -/
def scan_step (cp : Int) (acc : List Move × List Move × Board) (p : Pos) :
    List Move × List Move × Board :=
  if is_current_players_piece cp (getCell acc.2.2 p.1 p.2) then
    let res := find_capture_sequences_st acc.2.2 cp p.1 p.2 [] []
    if res.1.isEmpty then
      (acc.1, acc.2.1 ++ (get_normal_moves res.2 p.1 p.2).map (fun q => (p, [q])), res.2)
    else
      (acc.1 ++ res.1.map (fun caps => (p, caps)), acc.2.1, res.2)
  else acc

def get_valid_moves_st (g : GameState) : List Move × GameState :=
  let scan := allPositions.foldl (scan_step g.current_player) ([], [], g.board)
  ((if scan.1.isEmpty then scan.2.1 else scan.1),
   { board := scan.2.2, current_player := g.current_player })

/-- `is_game_over` on the threaded enumeration. -/
def is_game_over_st (g : GameState) : Bool × GameState :=
  let r := get_valid_moves_st g
  (r.1.length == 0, r.2)

/-- `get_winner` on the threaded enumeration. -/
def get_winner_st (g : GameState) : Option Int × GameState :=
  let r := is_game_over_st g
  (if !r.1 then none else some (-r.2.current_player), r.2)

/-! ### Basic list and cell lemmas -/

theorem getD_set_self (v d : Nat) :
    ∀ (l : List Nat) (i : Nat), i < l.length → (l.set i v).getD i d = v := by
  intro l
  induction l with
  | nil => intro i h; simp at h
  | cons a t ih =>
    intro i h
    cases i with
    | zero => simp
    | succ i => simpa using ih i (by simpa using h)

theorem getD_set_ne (v d : Nat) :
    ∀ (l : List Nat) (i j : Nat), i ≠ j → (l.set i v).getD j d = l.getD j d := by
  intro l
  induction l with
  | nil => intro i j _; simp
  | cons a t ih =>
    intro i j hij
    cases i with
    | zero =>
      cases j with
      | zero => exact absurd rfl hij
      | succ j => simp
    | succ i =>
      cases j with
      | zero => simp
      | succ j => simpa using ih i j (fun h => hij (by omega))

theorem flatMap_singleton_eq_map {α β : Type} (g : α → β) :
    ∀ (l : List α) (F : α → List β), (∀ a ∈ l, F a = [g a]) → l.flatMap F = l.map g := by
  intro l
  induction l with
  | nil => intro F _; rfl
  | cons a t ih =>
    intro F h
    have ha := h a (List.mem_cons_self a t)
    simp only [List.flatMap_cons, List.map_cons, ha,
      ih F (fun x hx => h x (List.mem_cons_of_mem a hx))]
    rfl

theorem eq_nil_of_flatMap_eq_nil {α β : Type} :
    ∀ {l : List α} {F : α → List β}, l.flatMap F = [] → ∀ a ∈ l, F a = [] := by
  intro l
  induction l with
  | nil => intro F _ a ha; simp at ha
  | cons b t ih =>
    intro F h a ha
    rw [List.flatMap_cons, List.append_eq_nil] at h
    rcases List.mem_cons.mp ha with rfl | ha'
    · exact h.1
    · exact ih h.2 a ha'

theorem length_filter_add_one {α : Type} [DecidableEq α] :
    ∀ {l : List α}, l.Nodup → ∀ {s : α}, s ∈ l → ∀ {p q : α → Bool},
      (∀ x ∈ l, x ≠ s → p x = q x) → p s = true → q s = false →
      (l.filter p).length = (l.filter q).length + 1 := by
  intro l
  induction l with
  | nil => intro _ s hs; simp at hs
  | cons a t ih =>
    intro hnd s hs p q hpq hp hq
    have hat : a ∉ t := (List.nodup_cons.mp hnd).1
    have hndt : t.Nodup := (List.nodup_cons.mp hnd).2
    rcases List.mem_cons.mp hs with rfl | hs'
    · have hfil : t.filter p = t.filter q :=
        List.filter_congr (fun x hx =>
          hpq x (List.mem_cons_of_mem _ hx) (fun he => hat (he ▸ hx)))
      simp [List.filter_cons, hp, hq, hfil]
    · have has : a ≠ s := fun he => hat (he ▸ hs')
      have hpa := hpq a (List.mem_cons_self a t) has
      have := ih hndt hs' (fun x hx hxs => hpq x (List.mem_cons_of_mem _ hx) hxs) hp hq
      by_cases hb : p a = true
      · simp [List.filter_cons, hb, hpa ▸ hb, this]
      · have hb' : p a = false := by revert hb; cases p a <;> simp
        simp [List.filter_cons, hb', hpa ▸ hb', this]

theorem valid_iff {row col : Int} :
    is_valid_position row col = true ↔ 0 ≤ row ∧ row < 8 ∧ 0 ≤ col ∧ col < 8 := by
  simp [is_valid_position, and_assoc]

theorem posIdx_lt_of_valid {row col : Int} (h : is_valid_position row col = true) :
    posIdx row col < 64 := by
  rcases valid_iff.mp h with ⟨h1, h2, h3, h4⟩
  unfold posIdx
  omega

theorem posIdx_inj {r c r' c' : Int} (h : is_valid_position r c = true)
    (h' : is_valid_position r' c' = true) (hne : (r, c) ≠ (r', c')) :
    posIdx r c ≠ posIdx r' c' := by
  rcases valid_iff.mp h with ⟨a1, a2, a3, a4⟩
  rcases valid_iff.mp h' with ⟨b1, b2, b3, b4⟩
  intro he
  apply hne
  unfold posIdx at he
  have hrc : r = r' ∧ c = c' := by omega
  rw [hrc.1, hrc.2]

theorem setCell_length (b : Board) (row col : Int) (v : Nat) :
    (setCell b row col v).length = b.length := by
  simp [setCell]

theorem getCell_setCell_self {b : Board} {row col : Int} (hlen : b.length = 64)
    (h : is_valid_position row col = true) (v : Nat) :
    getCell (setCell b row col v) row col = v := by
  have := posIdx_lt_of_valid h
  unfold getCell setCell
  exact getD_set_self v 0 b _ (by omega)

theorem getCell_setCell_ne {b : Board} {row col r c : Int}
    (hset : is_valid_position row col = true) (hread : is_valid_position r c = true)
    (hne : (r, c) ≠ (row, col)) (v : Nat) :
    getCell (setCell b row col v) r c = getCell b r c := by
  unfold getCell setCell
  exact getD_set_ne v 0 b _ _ (posIdx_inj hset hread (Ne.symm hne))

theorem mem_allPositions_valid : ∀ p ∈ allPositions, is_valid_position p.1 p.2 = true := by
  decide

theorem allPositions_nodup : allPositions.Nodup := by decide

theorem mem_allPositions_of_valid {row col : Int} (h : is_valid_position row col = true) :
    (row, col) ∈ allPositions := by
  rcases valid_iff.mp h with ⟨h1, h2, h3, h4⟩
  have he : ((row.toNat : Int), (col.toNat : Int)) = (row, col) := by
    rw [Prod.mk.injEq]; constructor <;> omega
  rw [← he]
  unfold allPositions
  have hr : row.toNat ∈ List.range 8 := List.mem_range.mpr (by omega)
  have hc : col.toNat ∈ List.range 8 := List.mem_range.mpr (by omega)
  exact List.mem_flatMap.mpr
    ⟨row.toNat, hr, List.mem_map_of_mem (fun c : Nat => (((row.toNat : Nat) : Int), (c : Int))) hc⟩

/-! ### Arithmetic helpers -/

theorem fdiv_two_eq (a : Int) : a.fdiv 2 = a / 2 := Int.fdiv_eq_ediv a (by norm_num)

theorem mid_row_coord (r dx : Int) : (r + dx + r).fdiv 2 = r + dx.fdiv 2 := by
  rw [fdiv_two_eq, fdiv_two_eq]
  omega

/-! ### The capture search in closed form

Because the recursive call of `_find_capture_sequences` reads the piece at
the landing square — which the admissibility test has just checked to be
empty — the recursion always terminates one level down (`capture_directions 0
= []`), so the whole search has the closed form below and every emitted chain
consists of exactly one jump. -/

theorem stepOK_spec {b : Board} {cp : Int} {row col : Int} {visited : List Pos}
    {d : Int × Int} (h : stepOK b cp row col visited d = true) :
    (row + d.1, col + d.2) ∉ visited ∧
    is_valid_position (row + d.1) (col + d.2) = true ∧
    getCell b (row + d.1) (col + d.2) = 0 ∧
    is_opponent_piece cp (getCell b (row + d.1.fdiv 2) (col + d.2.fdiv 2)) = true := by
  simp only [stepOK, Bool.and_eq_true, decide_eq_true_eq, beq_iff_eq] at h
  exact ⟨h.1.1.1, h.1.1.2, h.1.2, h.2⟩

theorem fcs_fuel_base {b : Board} {row col : Int} (h : getCell b row col = 0)
    (fuel : Nat) (cp : Int) (cs visited : List Pos) :
    find_capture_sequences_fuel (fuel + 1) b cp row col cs visited =
      if cs.isEmpty then [] else [cs] := by
  show fcs_step (find_capture_sequences_fuel fuel) b cp row col cs visited = _
  unfold fcs_step
  rw [h]
  simp [capture_directions]

theorem fcs_fuel_closed (fuel : Nat) (b : Board) (cp : Int) (row col : Int)
    (cs visited : List Pos) :
    find_capture_sequences_fuel (fuel + 2) b cp row col cs visited =
      (if ((capture_directions (getCell b row col)).filter (stepOK b cp row col visited)).isEmpty
       then (if cs.isEmpty then [] else [cs])
       else ((capture_directions (getCell b row col)).filter (stepOK b cp row col visited)).map
              (fun d => cs ++ [(row + d.1, col + d.2)])) := by
  show fcs_step (find_capture_sequences_fuel (fuel + 1)) b cp row col cs visited = _
  unfold fcs_step
  by_cases hA :
    ((capture_directions (getCell b row col)).filter (stepOK b cp row col visited)).isEmpty = true
  · rw [if_pos hA, if_pos hA]
  · rw [if_neg hA, if_neg hA]
    refine flatMap_singleton_eq_map (fun d : Int × Int => cs ++ [(row + d.1, col + d.2)]) _ _ ?_
    intro d hd
    have h0 := (stepOK_spec (List.mem_filter.mp hd).2).2.2.1
    rw [fcs_fuel_base h0]
    simp

theorem find_capture_sequences_closed (b : Board) (cp : Int) (row col : Int)
    (cs visited : List Pos) :
    find_capture_sequences b cp row col cs visited =
      (if ((capture_directions (getCell b row col)).filter (stepOK b cp row col visited)).isEmpty
       then (if cs.isEmpty then [] else [cs])
       else ((capture_directions (getCell b row col)).filter (stepOK b cp row col visited)).map
              (fun d => cs ++ [(row + d.1, col + d.2)])) :=
  fcs_fuel_closed 63 b cp row col cs visited

/-- The recursion budget of the wrapper is immaterial: any budget of at
least 2 computes the same result. -/
theorem find_capture_sequences_fuel_irrel (fuel : Nat) (b : Board) (cp : Int)
    (row col : Int) (cs visited : List Pos) :
    find_capture_sequences_fuel (fuel + 2) b cp row col cs visited =
      find_capture_sequences b cp row col cs visited :=
  (fcs_fuel_closed fuel b cp row col cs visited).trans
    (fcs_fuel_closed 63 b cp row col cs visited).symm

/-! ### Direction facts -/

theorem capture_directions_sub (piece : Nat) :
    ∀ d ∈ capture_directions piece, d ∈ [((2:Int), (-2:Int)), (2, 2), (-2, -2), (-2, 2)] := by
  unfold capture_directions
  split_ifs <;> intro d hd <;> simp at hd ⊢ <;> tauto

theorem capture_directions_natAbs {piece : Nat} {d : Int × Int}
    (h : d ∈ capture_directions piece) : d.1.natAbs = 2 ∧ d.2.natAbs = 2 := by
  have h4 := capture_directions_sub piece d h
  simp only [List.mem_cons, List.not_mem_nil, or_false] at h4
  rcases h4 with rfl | rfl | rfl | rfl <;> exact ⟨rfl, rfl⟩

theorem normal_directions_sub (piece : Nat) :
    ∀ d ∈ normal_directions piece, d ∈ [((1:Int), (-1:Int)), (1, 1), (-1, -1), (-1, 1)] := by
  unfold normal_directions
  split_ifs <;> intro d hd <;> simp at hd ⊢ <;> tauto

theorem normal_directions_natAbs {piece : Nat} {d : Int × Int}
    (h : d ∈ normal_directions piece) : d.1.natAbs = 1 ∧ d.2.natAbs = 1 := by
  have h4 := normal_directions_sub piece d h
  simp only [List.mem_cons, List.not_mem_nil, or_false] at h4
  rcases h4 with rfl | rfl | rfl | rfl <;> exact ⟨rfl, rfl⟩

/-! ### Piece facts -/

theorem cur_piece_ne_zero {cp : Int} {piece : Nat}
    (h : is_current_players_piece cp piece = true) : piece ≠ 0 := by
  unfold is_current_players_piece at h
  split_ifs at h <;> simp at h <;> omega

theorem opp_piece_ne_zero {cp : Int} {piece : Nat}
    (h : is_opponent_piece cp piece = true) : piece ≠ 0 := by
  unfold is_opponent_piece at h
  split_ifs at h <;> simp at h <;> omega

theorem promote_piece_ne_zero {piece : Nat} (h : piece ≠ 0) (row : Int) :
    promote_piece piece row ≠ 0 := by
  unfold promote_piece
  split_ifs <;> omega

/-! ### What membership in the move lists guarantees -/

theorem mem_captureMovesList {g : GameState} {m : Move} (hm : m ∈ captureMovesList g) :
    CaptureMoveSpec g m := by
  unfold captureMovesList at hm
  rw [List.mem_flatMap] at hm
  obtain ⟨p, hp, hmem⟩ := hm
  by_cases hcur : is_current_players_piece g.current_player (getCell g.board p.1 p.2) = true
  case neg => rw [if_neg hcur] at hmem; simp at hmem
  rw [if_pos hcur] at hmem
  rw [List.mem_map] at hmem
  obtain ⟨caps, hcaps, rfl⟩ := hmem
  unfold get_capture_moves at hcaps
  rw [find_capture_sequences_closed] at hcaps
  by_cases hA : ((capture_directions (getCell g.board p.1 p.2)).filter
      (stepOK g.board g.current_player p.1 p.2 [])).isEmpty = true
  · rw [if_pos hA] at hcaps; simp at hcaps
  · rw [if_neg hA] at hcaps
    rw [List.mem_map] at hcaps
    obtain ⟨d, hd, rfl⟩ := hcaps
    have hdir := (List.mem_filter.mp hd).1
    have hstep := (List.mem_filter.mp hd).2
    obtain ⟨hab1, hab2⟩ := capture_directions_natAbs hdir
    obtain ⟨hnv, hval, hemp, hopp⟩ := stepOK_spec hstep
    have hpv := mem_allPositions_valid p hp
    have hmidv : is_valid_position (p.1 + d.1.fdiv 2) (p.2 + d.2.fdiv 2) = true := by
      rcases valid_iff.mp hpv with ⟨a1, a2, a3, a4⟩
      rcases valid_iff.mp hval with ⟨b1, b2, b3, b4⟩
      rw [valid_iff, fdiv_two_eq, fdiv_two_eq]
      omega
    exact ⟨p.1, p.2, d.1, d.2, by simp, hp, mem_allPositions_of_valid hval,
      hab1, hab2, hcur, hemp, mem_allPositions_of_valid hmidv, hopp⟩

theorem mem_normalMovesList {g : GameState} {m : Move} (hm : m ∈ normalMovesList g) :
    SimpleMoveSpec g m := by
  unfold normalMovesList at hm
  rw [List.mem_flatMap] at hm
  obtain ⟨p, hp, hmem⟩ := hm
  by_cases hcond : (is_current_players_piece g.current_player (getCell g.board p.1 p.2) &&
      (get_capture_moves g.board g.current_player p.1 p.2).isEmpty) = true
  case neg => rw [if_neg hcond] at hmem; simp at hmem
  rw [if_pos hcond] at hmem
  rw [List.mem_map] at hmem
  obtain ⟨q, hq, rfl⟩ := hmem
  rw [Bool.and_eq_true] at hcond
  unfold get_normal_moves at hq
  rw [List.mem_filterMap] at hq
  obtain ⟨d, hd, hsome⟩ := hq
  by_cases hok : (is_valid_position (p.1 + d.1) (p.2 + d.2) &&
      (getCell g.board (p.1 + d.1) (p.2 + d.2) == 0)) = true
  case neg => rw [if_neg hok] at hsome; exact absurd hsome (by simp)
  rw [if_pos hok] at hsome
  obtain rfl := Option.some.inj hsome
  rw [Bool.and_eq_true, beq_iff_eq] at hok
  obtain ⟨hab1, hab2⟩ := normal_directions_natAbs hd
  exact ⟨p.1, p.2, d.1, d.2, by simp, hp, mem_allPositions_of_valid hok.1,
    hab1, hab2, hcond.1, hok.2⟩

theorem mem_get_valid_moves {g : GameState} {m : Move} (hm : m ∈ get_valid_moves g) :
    SimpleMoveSpec g m ∨ CaptureMoveSpec g m := by
  unfold get_valid_moves at hm
  by_cases hc : (captureMovesList g).isEmpty = true
  · rw [if_pos hc] at hm; exact Or.inl (mem_normalMovesList hm)
  · rw [if_neg hc] at hm; exact Or.inr (mem_captureMovesList hm)

theorem get_valid_moves_eq_capture {g : GameState} (h : captureMovesList g ≠ []) :
    get_valid_moves g = captureMovesList g := by
  unfold get_valid_moves
  have hf : (captureMovesList g).isEmpty = false := by
    cases hcl : captureMovesList g
    · exact absurd hcl h
    · rfl
  rw [hf]
  simp

theorem captureMovesList_ne_nil {g : GameState} {p : Pos} (hp : p ∈ allPositions)
    (hcur : is_current_players_piece g.current_player (getCell g.board p.1 p.2) = true)
    (hcap : get_capture_moves g.board g.current_player p.1 p.2 ≠ []) :
    captureMovesList g ≠ [] := by
  intro h
  apply hcap
  unfold captureMovesList at h
  have hnil := eq_nil_of_flatMap_eq_nil h p hp
  rw [if_pos hcur] at hnil
  exact List.map_eq_nil_iff.mp hnil

/-! ### The board after a legal move -/

theorem getLastD_single (s q : Pos) : ([q] : List Pos).getLastD s = q := rfl

theorem make_move_single_board (g : GameState) (r c dr dc : Int) (h2 : dr.natAbs ≠ 2) :
    (make_move g (r, c) [(r + dr, c + dc)]).board =
      setCell (setCell g.board r c 0) (r + dr) (c + dc)
        (promote_piece (getCell g.board r c) (r + dr)) := by
  simp [make_move, make_move_loop, add_sub_cancel_left, h2]

theorem make_move_jump_board (g : GameState) (r c dx dy : Int) (h2 : dx.natAbs = 2) :
    (make_move g (r, c) [(r + dx, c + dy)]).board =
      setCell (setCell (setCell g.board r c 0) (r + dx.fdiv 2) (c + dy.fdiv 2) 0)
        (r + dx) (c + dy) (promote_piece (getCell g.board r c) (r + dx)) := by
  simp [make_move, make_move_loop, add_sub_cancel_left, h2, mid_row_coord]

theorem capturedSquares_single (r c dr dc : Int) (h2 : dr.natAbs ≠ 2) :
    capturedSquares (r, c) [(r + dr, c + dc)] = [] ∧
    captureStepCount (r, c) [(r + dr, c + dc)] = 0 := by
  constructor <;>
    simp [capturedSquares, captureStepCount, captureSteps, stepPairs, add_sub_cancel_left, h2]

theorem capturedSquares_jump (r c dx dy : Int) (h2 : dx.natAbs = 2) :
    capturedSquares (r, c) [(r + dx, c + dy)] = [(r + dx.fdiv 2, c + dy.fdiv 2)] ∧
    captureStepCount (r, c) [(r + dx, c + dy)] = 1 := by
  constructor <;>
    simp [capturedSquares, captureStepCount, captureSteps, stepPairs, add_sub_cancel_left, h2,
      mid_row_coord]

/-! ### Counting occupied squares -/

theorem countPieces_clear {b : Board} {s : Pos} (hlen : b.length = 64)
    (hs : s ∈ allPositions) (hne : getCell b s.1 s.2 ≠ 0) :
    countPieces b = countPieces (setCell b s.1 s.2 0) + 1 := by
  unfold countPieces
  refine length_filter_add_one allPositions_nodup hs ?_ ?_ ?_
  · intro x hx hxs
    rw [getCell_setCell_ne (mem_allPositions_valid s hs) (mem_allPositions_valid x hx) hxs 0]
  · simp [hne]
  · rw [getCell_setCell_self hlen (mem_allPositions_valid s hs)]
    simp

theorem countPieces_place (v : Nat) {b : Board} {t : Pos} (hlen : b.length = 64)
    (ht : t ∈ allPositions) (h0 : getCell b t.1 t.2 = 0) (hv : v ≠ 0) :
    countPieces (setCell b t.1 t.2 v) = countPieces b + 1 := by
  unfold countPieces
  refine length_filter_add_one allPositions_nodup ht ?_ ?_ ?_
  · intro x hx hxt
    rw [getCell_setCell_ne (mem_allPositions_valid t ht) (mem_allPositions_valid x hx) hxt v]
  · rw [getCell_setCell_self hlen (mem_allPositions_valid t ht)]
    simp [hv]
  · simp [h0]

/-! ### Pointwise description of a legal move's application -/

theorem getCell_make_move {g : GameState} {m : Move} (hlen : g.board.length = 64)
    (hm : m ∈ get_valid_moves g) {p : Pos} (hp : p ∈ allPositions) :
    getCell (make_move g m.1 m.2).board p.1 p.2 =
      if p = m.2.getLastD m.1 then
        promote_piece (getCell g.board m.1.1 m.1.2) (m.2.getLastD m.1).1
      else if p ∈ capturedSquares m.1 m.2 then 0
      else if p = m.1 then 0
      else getCell g.board p.1 p.2 := by
  have hpval := mem_allPositions_valid p hp
  rcases mem_get_valid_moves hm with hS | hC
  · obtain ⟨r, c, dr, dc, hm2, hs, ht, hab1, hab2, hcur, hemp⟩ := hS
    subst hm2
    have htval := mem_allPositions_valid _ ht
    have hsval := mem_allPositions_valid _ hs
    dsimp only
    rw [getLastD_single, make_move_single_board g r c dr dc (by omega),
      (capturedSquares_single r c dr dc (by omega : dr.natAbs ≠ 2)).1]
    by_cases hpt : p = (r + dr, c + dc)
    · subst hpt
      rw [if_pos rfl]
      exact getCell_setCell_self (by rw [setCell_length]; exact hlen) htval _
    · rw [if_neg hpt, if_neg (List.not_mem_nil p),
        getCell_setCell_ne htval hpval hpt _]
      by_cases hps : p = (r, c)
      · subst hps
        rw [if_pos rfl]
        exact getCell_setCell_self hlen hsval 0
      · rw [if_neg hps, getCell_setCell_ne hsval hpval hps 0]
  · obtain ⟨r, c, dx, dy, hm2, hs, ht, hab1, hab2, hcur, hemp, hmid, hopp⟩ := hC
    subst hm2
    have htval := mem_allPositions_valid _ ht
    have hsval := mem_allPositions_valid _ hs
    have hmval := mem_allPositions_valid _ hmid
    have hmt : ((r + dx.fdiv 2, c + dy.fdiv 2) : Pos) ≠ (r + dx, c + dy) := by
      intro he
      rw [Prod.mk.injEq, fdiv_two_eq] at he
      omega
    have hsm : ((r, c) : Pos) ≠ (r + dx.fdiv 2, c + dy.fdiv 2) := by
      intro he
      rw [Prod.mk.injEq, fdiv_two_eq] at he
      omega
    dsimp only
    rw [getLastD_single, make_move_jump_board g r c dx dy hab1,
      (capturedSquares_jump r c dx dy hab1).1]
    by_cases hpt : p = (r + dx, c + dy)
    · subst hpt
      rw [if_pos rfl]
      exact getCell_setCell_self (by rw [setCell_length, setCell_length]; exact hlen) htval _
    · rw [if_neg hpt, getCell_setCell_ne htval hpval hpt _]
      by_cases hpm : p = (r + dx.fdiv 2, c + dy.fdiv 2)
      · subst hpm
        rw [if_pos (List.mem_singleton.mpr rfl)]
        exact getCell_setCell_self (by rw [setCell_length]; exact hlen) hmval 0
      · rw [if_neg (fun hmem => hpm (List.mem_singleton.mp hmem)),
          getCell_setCell_ne hmval hpval hpm 0]
        by_cases hps : p = (r, c)
        · subst hps
          rw [if_pos rfl]
          exact getCell_setCell_self hlen hsval 0
        · rw [if_neg hps, getCell_setCell_ne hsval hpval hps 0]

/-! ### The `make_move` loop and its final square -/

theorem make_move_loop_last (piece : Nat) :
    ∀ (moves : List Pos) (b : Board) (row col : Int), moves ≠ [] → b.length = 64 →
      is_valid_position (moves.getLastD (row, col)).1 (moves.getLastD (row, col)).2 = true →
      getCell (make_move_loop b piece row col moves) (moves.getLastD (row, col)).1
          (moves.getLastD (row, col)).2 =
        promote_piece piece (moves.getLastD (row, col)).1 := by
  intro moves
  induction moves with
  | nil => intro b row col hne _ _; exact absurd rfl hne
  | cons q rest ih =>
    intro b row col hne hblen hval
    cases rest with
    | nil =>
      rw [show (([q] : List Pos).getLastD (row, col)) = q from rfl] at hval ⊢
      show getCell (setCell
        (if (q.1 - row).natAbs == 2
          then setCell b ((q.1 + row).fdiv 2) ((q.2 + col).fdiv 2) 0 else b)
        q.1 q.2 (promote_piece piece q.1)) q.1 q.2 = promote_piece piece q.1
      refine getCell_setCell_self ?_ hval _
      by_cases hcond : ((q.1 - row).natAbs == 2) = true
      · rw [if_pos hcond, setCell_length]; exact hblen
      · rw [if_neg hcond]; exact hblen
    | cons q2 rest' =>
      rw [show ((q :: q2 :: rest').getLastD (row, col)) = ((q2 :: rest').getLastD q) from rfl]
        at hval ⊢
      show getCell (make_move_loop
        (if (q.1 - row).natAbs == 2
          then setCell b ((q.1 + row).fdiv 2) ((q.2 + col).fdiv 2) 0 else b)
        piece q.1 q.2 (q2 :: rest'))
          ((q2 :: rest').getLastD q).1 ((q2 :: rest').getLastD q).2 =
        promote_piece piece ((q2 :: rest').getLastD q).1
      have hb1 : (if (q.1 - row).natAbs == 2
          then setCell b ((q.1 + row).fdiv 2) ((q.2 + col).fdiv 2) 0 else b).length = 64 := by
        by_cases hcond : ((q.1 - row).natAbs == 2) = true
        · rw [if_pos hcond, setCell_length]; exact hblen
        · rw [if_neg hcond]; exact hblen
      exact ih _ q.1 q.2 (by simp) hb1 hval

/-! ### Claim theorems -/

/-- C1 (counterexample): in the spec's two-jump position — Black Man at
(4,3), White Men at (5,4) and (5,6), Black to move — `get_valid_moves` does
NOT return the two-jump chain ((4,3),[(6,5),(4,7)]) the claim demands; it
returns exactly the one-jump chain ((4,3),[(6,5)]). -/
theorem two_jump_chain_not_returned :
    (((4 : Int), (3 : Int)), [((6 : Int), (5 : Int)), ((4 : Int), (7 : Int))]) ∉
      get_valid_moves state_c1 ∧
    get_valid_moves state_c1 ≠
      [(((4 : Int), (3 : Int)), [((6 : Int), (5 : Int)), ((4 : Int), (7 : Int))])] := by
  decide

/-- C1 (amended): in that position `get_valid_moves` returns the single
one-jump chain ((4,3),[(6,5)]) — a Black Man cannot continue with
(6,5)→(4,7), which moves toward decreasing rows, and the search never
extends a chain past its first jump — and applying that chain removes the
White Man at (5,4), leaves a Black Man at (6,5), clears (4,3), leaves the
White Man at (5,6) in place, and hands the turn to White. -/
theorem one_jump_capture_returned :
    get_valid_moves state_c1 = [(((4 : Int), (3 : Int)), [((6 : Int), (5 : Int))])] ∧
    getCell (make_move state_c1 (4, 3) [(6, 5)]).board 5 4 = 0 ∧
    getCell (make_move state_c1 (4, 3) [(6, 5)]).board 4 3 = 0 ∧
    getCell (make_move state_c1 (4, 3) [(6, 5)]).board 6 5 = 1 ∧
    getCell (make_move state_c1 (4, 3) [(6, 5)]).board 5 6 = 3 ∧
    (make_move state_c1 (4, 3) [(6, 5)]).current_player = -1 := by
  decide

/-- C2: whenever some piece of the current player has a non-empty capture
search, every move `get_valid_moves` returns is a capture chain and none is
a simple move — even for pieces of the same player that have no captures
themselves. -/
theorem mandatory_capture_law (g : GameState)
    (h : ∃ p ∈ allPositions,
      is_current_players_piece g.current_player (getCell g.board p.1 p.2) = true ∧
      get_capture_moves g.board g.current_player p.1 p.2 ≠ []) :
    ∀ m ∈ get_valid_moves g, is_capture_move m = true ∧ is_simple_move m = false := by
  obtain ⟨p, hp, hcur, hcap⟩ := h
  rw [get_valid_moves_eq_capture (captureMovesList_ne_nil hp hcur hcap)]
  intro m hm
  obtain ⟨r, c, dx, dy, hm2, -, -, hab1, -, -, -, -, -⟩ := mem_captureMovesList hm
  subst hm2
  constructor
  · simp [is_capture_move, stepPairs, add_sub_cancel_left, hab1]
  · simp [is_simple_move, stepPairs, add_sub_cancel_left, hab1]

/-- C3: `get_state` never succeeds — `self.board.deepcopy()` raises
`AttributeError` because `numpy.ndarray` has no `deepcopy` attribute, so no
copy (deep or otherwise) is ever returned, contradicting the claim that the
call succeeds and returns an independent deep copy. -/
theorem get_state_raises :
    get_state initState =
      Except.error "AttributeError: ndarray object has no attribute deepcopy" ∧
    ∀ g : GameState, (get_state g).isOk = false :=
  ⟨rfl, fun _ => rfl⟩

/-- C4: `make_move` performs no membership validation: the move
((2,1),[(4,1)]) is not in `get_valid_moves` of the initial state, yet
`make_move` applies it — the start square is cleared, a piece appears at
(4,1), the turn flips, and no error of any kind is raised — contradicting
the claim that illegal moves fail with `IllegalMoveError` and leave the
state unchanged. -/
theorem make_move_skips_validation :
    (((2 : Int), (1 : Int)), [((4 : Int), (1 : Int))]) ∉ get_valid_moves initState ∧
    getCell initState.board 2 1 = 1 ∧
    getCell (make_move initState (2, 1) [(4, 1)]).board 2 1 = 0 ∧
    getCell (make_move initState (2, 1) [(4, 1)]).board 4 1 = 1 ∧
    (make_move initState (2, 1) [(4, 1)]).current_player = -1 ∧
    make_move initState (2, 1) [(4, 1)] ≠ initState := by
  decide

/-- C5: applying any move from the current `get_valid_moves` result changes
the number of occupied squares by exactly the number of capture steps (row
delta of magnitude 2) of that move — in particular the count never
increases — every square other than the start square, the captured
midpoints and the final destination keeps its value (so every non-captured
piece keeps its side and rank), and the final square receives the moved
piece, promoted exactly by the kinging rule. -/
theorem conservation (g : GameState) (m : Move) (hlen : g.board.length = 64)
    (hm : m ∈ get_valid_moves g) :
    countPieces (make_move g m.1 m.2).board + captureStepCount m.1 m.2 = countPieces g.board ∧
    countPieces (make_move g m.1 m.2).board ≤ countPieces g.board ∧
    (∀ p ∈ allPositions, p ≠ m.1 → p ∉ capturedSquares m.1 m.2 → p ≠ m.2.getLastD m.1 →
      getCell (make_move g m.1 m.2).board p.1 p.2 = getCell g.board p.1 p.2) ∧
    getCell (make_move g m.1 m.2).board (m.2.getLastD m.1).1 (m.2.getLastD m.1).2 =
      promote_piece (getCell g.board m.1.1 m.1.2) (m.2.getLastD m.1).1 := by
  have hlastmem : m.2.getLastD m.1 ∈ allPositions := by
    rcases mem_get_valid_moves hm with hS | hC
    · obtain ⟨r, c, dr, dc, hm2, -, ht, -, -, -, -⟩ := hS
      subst hm2; exact ht
    · obtain ⟨r, c, dx, dy, hm2, -, ht, -, -, -, -, -, -⟩ := hC
      subst hm2; exact ht
  have hframe : ∀ p ∈ allPositions, p ≠ m.1 → p ∉ capturedSquares m.1 m.2 →
      p ≠ m.2.getLastD m.1 →
      getCell (make_move g m.1 m.2).board p.1 p.2 = getCell g.board p.1 p.2 := by
    intro p hp hps hpc hpt
    rw [getCell_make_move hlen hm hp, if_neg hpt, if_neg hpc, if_neg hps]
  have hlast : getCell (make_move g m.1 m.2).board (m.2.getLastD m.1).1 (m.2.getLastD m.1).2 =
      promote_piece (getCell g.board m.1.1 m.1.2) (m.2.getLastD m.1).1 := by
    rw [getCell_make_move hlen hm hlastmem, if_pos rfl]
  have hcount : countPieces (make_move g m.1 m.2).board + captureStepCount m.1 m.2 =
      countPieces g.board := by
    rcases mem_get_valid_moves hm with hS | hC
    · obtain ⟨r, c, dr, dc, hm2, hs, ht, hab1, hab2, hcur, hemp⟩ := hS
      subst hm2
      dsimp only
      have h2 : dr.natAbs ≠ 2 := by omega
      rw [(capturedSquares_single r c dr dc h2).2,
        make_move_single_board g r c dr dc h2]
      have hpiece := cur_piece_ne_zero hcur
      have hts : ((r + dr, c + dc) : Pos) ≠ (r, c) := by
        intro he; rw [Prod.mk.injEq] at he; omega
      have hb1len : (setCell g.board r c 0).length = 64 := by
        rw [setCell_length]; exact hlen
      have h0t : getCell (setCell g.board r c 0) (r + dr) (c + dc) = 0 := by
        rw [getCell_setCell_ne (mem_allPositions_valid _ hs) (mem_allPositions_valid _ ht) hts 0]
        exact hemp
      have hc1 := countPieces_clear hlen hs hpiece
      have hc2 := countPieces_place (promote_piece (getCell g.board r c) (r + dr))
        hb1len ht h0t (promote_piece_ne_zero hpiece _)
      dsimp only at hc1 hc2
      omega
    · obtain ⟨r, c, dx, dy, hm2, hs, ht, hab1, hab2, hcur, hemp, hmid, hopp⟩ := hC
      subst hm2
      dsimp only
      rw [(capturedSquares_jump r c dx dy hab1).2,
        make_move_jump_board g r c dx dy hab1]
      have hpiece := cur_piece_ne_zero hcur
      have hms : ((r + dx.fdiv 2, c + dy.fdiv 2) : Pos) ≠ (r, c) := by
        intro he; rw [Prod.mk.injEq, fdiv_two_eq] at he; omega
      have hts : ((r + dx, c + dy) : Pos) ≠ (r, c) := by
        intro he; rw [Prod.mk.injEq] at he; omega
      have htm : ((r + dx, c + dy) : Pos) ≠ (r + dx.fdiv 2, c + dy.fdiv 2) := by
        intro he; rw [Prod.mk.injEq, fdiv_two_eq] at he; omega
      have hb1len : (setCell g.board r c 0).length = 64 := by
        rw [setCell_length]; exact hlen
      have hb2len : (setCell (setCell g.board r c 0) (r + dx.fdiv 2) (c + dy.fdiv 2) 0).length
          = 64 := by
        rw [setCell_length, setCell_length]; exact hlen
      have hmne : getCell (setCell g.board r c 0) (r + dx.fdiv 2) (c + dy.fdiv 2) ≠ 0 := by
        rw [getCell_setCell_ne (mem_allPositions_valid _ hs) (mem_allPositions_valid _ hmid)
          hms 0]
        exact opp_piece_ne_zero hopp
      have h0t : getCell (setCell (setCell g.board r c 0) (r + dx.fdiv 2) (c + dy.fdiv 2) 0)
          (r + dx) (c + dy) = 0 := by
        rw [getCell_setCell_ne (mem_allPositions_valid _ hmid) (mem_allPositions_valid _ ht)
          htm 0,
          getCell_setCell_ne (mem_allPositions_valid _ hs) (mem_allPositions_valid _ ht) hts 0]
        exact hemp
      have hc1 := countPieces_clear hlen hs hpiece
      have hc2 := countPieces_clear hb1len hmid hmne
      have hc3 := countPieces_place (promote_piece (getCell g.board r c) (r + dx))
        hb2len ht h0t (promote_piece_ne_zero hpiece _)
      dsimp only at hc1 hc2 hc3
      omega
  exact ⟨hcount, by omega, hframe, hlast⟩

/-- C6: the piece placed on the final square of any `make_move` sequence is
the piece read from the start square, promoted exactly according to the row
of the final square — a Man (value 1 or 3) becomes a King (value 2 or 4)
exactly when the final row is 7 (Black) or 0 (White); rows reached at
intermediate steps of the sequence play no role. -/
theorem promotion_on_final_row_only (g : GameState) (start : Pos) (moves : List Pos)
    (hne : moves ≠ []) (hlen : g.board.length = 64)
    (hval : is_valid_position (moves.getLastD start).1 (moves.getLastD start).2 = true) :
    getCell (make_move g start moves).board (moves.getLastD start).1
        (moves.getLastD start).2 =
      promote_piece (getCell g.board start.1 start.2) (moves.getLastD start).1 :=
  make_move_loop_last (getCell g.board start.1 start.2) moves
    (setCell g.board start.1 start.2 0) start.1 start.2 hne
    (by rw [setCell_length]; exact hlen) hval

/-- C7: in the freshly initialized state `get_valid_moves` returns exactly
these 7 moves — each a simple, non-capture move of a Black Man standing on
row 2 to an empty odd-parity square of row 3. -/
theorem initial_black_moves :
    get_valid_moves initState =
      [(((2 : Int), (1 : Int)), [((3 : Int), (0 : Int))]), ((2, 1), [(3, 2)]),
       ((2, 3), [(3, 2)]), ((2, 3), [(3, 4)]), ((2, 5), [(3, 4)]), ((2, 5), [(3, 6)]),
       ((2, 7), [(3, 6)])] ∧
    (get_valid_moves initState).length = 7 ∧
    (∀ m ∈ get_valid_moves initState,
      is_simple_move m = true ∧ is_capture_move m = false ∧ m.1.1 = 2 ∧
      getCell initState.board m.1.1 m.1.2 = 1 ∧ m.2.length = 1 ∧
      ∀ q ∈ m.2, q.1 = 3 ∧ (q.1 + q.2) % 2 = 1 ∧ getCell initState.board q.1 q.2 = 0) := by
  refine ⟨by decide, by decide, by decide⟩

/-- C8: applying a move from the current `get_valid_moves` result negates
`current_player`, and the only cells that change are the start square (set
to Empty), the midpoint of every capture step (set to Empty) and the final
destination (set to the moved, possibly promoted, piece); every other cell
keeps its value. -/
theorem make_move_frame (g : GameState) (m : Move) (hlen : g.board.length = 64)
    (hm : m ∈ get_valid_moves g) :
    (make_move g m.1 m.2).current_player = -g.current_player ∧
    getCell (make_move g m.1 m.2).board m.1.1 m.1.2 = 0 ∧
    (∀ q ∈ capturedSquares m.1 m.2, getCell (make_move g m.1 m.2).board q.1 q.2 = 0) ∧
    getCell (make_move g m.1 m.2).board (m.2.getLastD m.1).1 (m.2.getLastD m.1).2 =
      promote_piece (getCell g.board m.1.1 m.1.2) (m.2.getLastD m.1).1 ∧
    (∀ p ∈ allPositions, p ≠ m.1 → p ∉ capturedSquares m.1 m.2 → p ≠ m.2.getLastD m.1 →
      getCell (make_move g m.1 m.2).board p.1 p.2 = getCell g.board p.1 p.2) := by
  have hflip : (make_move g m.1 m.2).current_player = -g.current_player := by
    show g.current_player * (-1) = -g.current_player
    ring
  have hlastmem : m.2.getLastD m.1 ∈ allPositions := by
    rcases mem_get_valid_moves hm with hS | hC
    · obtain ⟨r, c, dr, dc, hm2, -, ht, -, -, -, -⟩ := hS
      subst hm2; exact ht
    · obtain ⟨r, c, dx, dy, hm2, -, ht, -, -, -, -, -, -⟩ := hC
      subst hm2; exact ht
  have hlast : getCell (make_move g m.1 m.2).board (m.2.getLastD m.1).1 (m.2.getLastD m.1).2 =
      promote_piece (getCell g.board m.1.1 m.1.2) (m.2.getLastD m.1).1 := by
    rw [getCell_make_move hlen hm hlastmem, if_pos rfl]
  have hframe : ∀ p ∈ allPositions, p ≠ m.1 → p ∉ capturedSquares m.1 m.2 →
      p ≠ m.2.getLastD m.1 →
      getCell (make_move g m.1 m.2).board p.1 p.2 = getCell g.board p.1 p.2 := by
    intro p hp hps hpc hpt
    rw [getCell_make_move hlen hm hp, if_neg hpt, if_neg hpc, if_neg hps]
  have hstart : getCell (make_move g m.1 m.2).board m.1.1 m.1.2 = 0 := by
    rcases mem_get_valid_moves hm with hS | hC
    · obtain ⟨r, c, dr, dc, hm2, hs, -, hab1, -, -, -⟩ := hS
      subst hm2
      have h2 : dr.natAbs ≠ 2 := by omega
      have hst : ((r, c) : Pos) ≠ (r + dr, c + dc) := by
        intro he; rw [Prod.mk.injEq] at he; omega
      rw [getCell_make_move hlen hm hs]
      dsimp only
      rw [getLastD_single, if_neg hst, (capturedSquares_single r c dr dc h2).1,
        if_neg (List.not_mem_nil _), if_pos rfl]
    · obtain ⟨r, c, dx, dy, hm2, hs, -, hab1, -, -, -, -, -⟩ := hC
      subst hm2
      have hst : ((r, c) : Pos) ≠ (r + dx, c + dy) := by
        intro he; rw [Prod.mk.injEq] at he; omega
      have hsm : ((r, c) : Pos) ≠ (r + dx.fdiv 2, c + dy.fdiv 2) := by
        intro he; rw [Prod.mk.injEq, fdiv_two_eq] at he; omega
      rw [getCell_make_move hlen hm hs]
      dsimp only
      rw [getLastD_single, if_neg hst, (capturedSquares_jump r c dx dy hab1).1,
        if_neg (fun hmem => hsm (List.mem_singleton.mp hmem)), if_pos rfl]
  have hcaps : ∀ q ∈ capturedSquares m.1 m.2,
      getCell (make_move g m.1 m.2).board q.1 q.2 = 0 := by
    rcases mem_get_valid_moves hm with hS | hC
    · obtain ⟨r, c, dr, dc, hm2, -, -, hab1, -, -, -⟩ := hS
      subst hm2
      intro q hq
      dsimp only at hq
      rw [(capturedSquares_single r c dr dc (by omega : dr.natAbs ≠ 2)).1] at hq
      exact absurd hq (List.not_mem_nil _)
    · obtain ⟨r, c, dx, dy, hm2, -, -, hab1, -, -, -, hmid, -⟩ := hC
      subst hm2
      intro q hq
      dsimp only at hq
      rw [(capturedSquares_jump r c dx dy hab1).1] at hq
      obtain rfl := List.mem_singleton.mp hq
      have hmt : ((r + dx.fdiv 2, c + dy.fdiv 2) : Pos) ≠ (r + dx, c + dy) := by
        intro he; rw [Prod.mk.injEq, fdiv_two_eq] at he; omega
      rw [getCell_make_move hlen hm hmid]
      dsimp only
      rw [getLastD_single, if_neg hmt, (capturedSquares_jump r c dx dy hab1).1,
        if_pos (List.mem_singleton.mpr rfl)]
  exact ⟨hflip, hstart, hcaps, hlast, hframe⟩

/-- C9: the initial board is empty on every even-parity square, and this
invariant is preserved by applying any move from the current
`get_valid_moves` result: only odd-parity squares are ever occupied in
reachable states. -/
theorem dark_square_invariant :
    dark_squares_only initial_board ∧
    ∀ (g : GameState), g.board.length = 64 → dark_squares_only g.board →
      ∀ m ∈ get_valid_moves g, dark_squares_only (make_move g m.1 m.2).board := by
  constructor
  · unfold dark_squares_only
    decide
  · intro g hlen hinv m hm p hp hpar
    have hptne : p ≠ m.2.getLastD m.1 := by
      rcases mem_get_valid_moves hm with hS | hC
      · obtain ⟨r, c, dr, dc, hm2, hs, -, hab1, hab2, hcur, -⟩ := hS
        subst hm2
        dsimp only
        rw [getLastD_single]
        intro he
        have hsodd : (r + c) % 2 ≠ 0 := fun h0 => cur_piece_ne_zero hcur (hinv (r, c) hs h0)
        rw [he] at hpar
        dsimp only at hpar
        omega
      · obtain ⟨r, c, dx, dy, hm2, hs, -, hab1, hab2, hcur, -, -, -⟩ := hC
        subst hm2
        dsimp only
        rw [getLastD_single]
        intro he
        have hsodd : (r + c) % 2 ≠ 0 := fun h0 => cur_piece_ne_zero hcur (hinv (r, c) hs h0)
        rw [he] at hpar
        dsimp only at hpar
        omega
    rw [getCell_make_move hlen hm hp, if_neg hptne]
    by_cases hpc : p ∈ capturedSquares m.1 m.2
    · rw [if_pos hpc]
    · rw [if_neg hpc]
      by_cases hps : p = m.1
      · rw [if_pos hps]
      · rw [if_neg hps]
        exact hinv p hp hpar

/-! ### C10: the enumeration does not mutate the engine state -/

theorem fcs_st_fuel_eq :
    ∀ (fuel : Nat) (b : Board) (cp row col : Int) (cs visited : List Pos),
      find_capture_sequences_st_fuel fuel b cp row col cs visited =
        (find_capture_sequences_fuel fuel b cp row col cs visited, b) := by
  intro fuel
  induction fuel with
  | zero => intro b cp row col cs visited; rfl
  | succ fuel ih =>
    intro b cp row col cs visited
    show fcs_st_step (find_capture_sequences_st_fuel fuel) b cp row col cs visited =
      (fcs_step (find_capture_sequences_fuel fuel) b cp row col cs visited, b)
    have main : ∀ (dirs : List (Int × Int)) (acc0 : List (List Pos)) (flag0 : Bool),
        dirs.foldl (fcs_st_iter (find_capture_sequences_st_fuel fuel) cp row col cs visited)
          (acc0, b, flag0) =
        (acc0 ++ (dirs.filter (stepOK b cp row col visited)).flatMap
            (fun d => find_capture_sequences_fuel fuel b cp (row + d.1) (col + d.2)
              (cs ++ [(row + d.1, col + d.2)]) ((row + d.1, col + d.2) :: visited)),
         b, flag0 || !((dirs.filter (stepOK b cp row col visited)).isEmpty)) := by
      intro dirs
      induction dirs with
      | nil => intro acc0 flag0; simp
      | cons d dirs ihd =>
        intro acc0 flag0
        rw [List.foldl_cons]
        by_cases hd : stepOK b cp row col visited d = true
        · have hstep : fcs_st_iter (find_capture_sequences_st_fuel fuel) cp row col cs visited
              (acc0, b, flag0) d =
              (acc0 ++ find_capture_sequences_fuel fuel b cp (row + d.1) (col + d.2)
                (cs ++ [(row + d.1, col + d.2)]) ((row + d.1, col + d.2) :: visited), b, true) := by
            unfold fcs_st_iter
            dsimp only
            rw [if_pos hd, ih b cp (row + d.1) (col + d.2)]
          rw [hstep, ihd, List.filter_cons]
          simp [hd, List.append_assoc]
        · have hstep : fcs_st_iter (find_capture_sequences_st_fuel fuel) cp row col cs visited
              (acc0, b, flag0) d = (acc0, b, flag0) := by
            unfold fcs_st_iter
            dsimp only
            rw [if_neg hd]
          rw [hstep, ihd, List.filter_cons]
          simp [hd]
    unfold fcs_st_step fcs_step
    rw [main]
    by_cases hA : ((capture_directions (getCell b row col)).filter
        (stepOK b cp row col visited)).isEmpty = true
    · have hnil : (capture_directions (getCell b row col)).filter
          (stepOK b cp row col visited) = [] := by
        cases hfl : (capture_directions (getCell b row col)).filter (stepOK b cp row col visited)
        · rfl
        · rw [hfl] at hA; exact absurd hA (by simp)
      by_cases hcs : cs.isEmpty = true <;> simp [hA, hnil, hcs]
    · simp [hA]

theorem find_capture_sequences_st_eq (b : Board) (cp : Int) (row col : Int)
    (cs visited : List Pos) :
    find_capture_sequences_st b cp row col cs visited =
      (find_capture_sequences b cp row col cs visited, b) :=
  fcs_st_fuel_eq 65 b cp row col cs visited

theorem scan_fold_eq (cp : Int) (b : Board) :
    ∀ (l : List Pos) (cap0 mov0 : List Move),
      l.foldl (scan_step cp) (cap0, mov0, b) =
      (cap0 ++ l.flatMap (fun p =>
          if is_current_players_piece cp (getCell b p.1 p.2) then
            (get_capture_moves b cp p.1 p.2).map (fun caps => (p, caps))
          else []),
       mov0 ++ l.flatMap (fun p =>
          if is_current_players_piece cp (getCell b p.1 p.2) &&
             (get_capture_moves b cp p.1 p.2).isEmpty then
            (get_normal_moves b p.1 p.2).map (fun q => (p, [q]))
          else []),
       b) := by
  intro l
  induction l with
  | nil => intro cap0 mov0; simp
  | cons p l ihl =>
    intro cap0 mov0
    rw [List.foldl_cons]
    by_cases hcur : is_current_players_piece cp (getCell b p.1 p.2) = true
    · have hres := find_capture_sequences_st_eq b cp p.1 p.2 [] []
      by_cases hemp : (get_capture_moves b cp p.1 p.2).isEmpty = true
      · have hemp' : (find_capture_sequences b cp p.1 p.2 [] []).isEmpty = true := hemp
        have hstep : scan_step cp (cap0, mov0, b) p =
            (cap0, mov0 ++ (get_normal_moves b p.1 p.2).map (fun q => (p, [q])), b) := by
          unfold scan_step
          dsimp only
          rw [if_pos hcur, hres]
          dsimp only
          rw [if_pos hemp']
        have hnil : get_capture_moves b cp p.1 p.2 = [] := by
          cases hfl : get_capture_moves b cp p.1 p.2
          · rfl
          · rw [hfl] at hemp; exact absurd hemp (by simp)
        rw [hstep, ihl, List.flatMap_cons, List.flatMap_cons,
          if_pos hcur, if_pos (by rw [hcur, hemp]; rfl :
            (is_current_players_piece cp (getCell b p.1 p.2) &&
              (get_capture_moves b cp p.1 p.2).isEmpty) = true)]
        simp [List.append_assoc, hnil]
      · have hemp' : (find_capture_sequences b cp p.1 p.2 [] []).isEmpty = false := by
          cases hfl : (find_capture_sequences b cp p.1 p.2 [] []).isEmpty
          · rfl
          · exact absurd hfl hemp
        have hstep : scan_step cp (cap0, mov0, b) p =
            (cap0 ++ (get_capture_moves b cp p.1 p.2).map (fun caps => (p, caps)), mov0, b) := by
          unfold scan_step
          dsimp only
          rw [if_pos hcur, hres]
          dsimp only
          rw [hemp']
          rfl
        rw [hstep, ihl, List.flatMap_cons, List.flatMap_cons,
          if_pos hcur, if_neg (by rw [hcur]; simpa using hemp :
            ¬(is_current_players_piece cp (getCell b p.1 p.2) &&
              (get_capture_moves b cp p.1 p.2).isEmpty) = true)]
        simp [List.append_assoc]
    · have hstep : scan_step cp (cap0, mov0, b) p = (cap0, mov0, b) := by
        unfold scan_step
        dsimp only
        rw [if_neg hcur]
      rw [hstep, ihl, List.flatMap_cons, List.flatMap_cons,
        if_neg hcur, if_neg (by rw [Bool.and_eq_true]; exact fun hand => hcur hand.1)]
      simp

/-- C10: the enumeration never mutates the engine state.  The
board-threaded versions of `get_valid_moves`, `is_game_over` and
`get_winner` — in which every read of the board during the scan and the
capture search is taken from the board as it stands at that moment, and the
board each call finishes with is handed back — return exactly the plain
results together with the unchanged state. -/
theorem enumeration_preserves_state (g : GameState) :
    get_valid_moves_st g = (get_valid_moves g, g) ∧
    is_game_over_st g = (is_game_over g, g) ∧
    get_winner_st g = (get_winner g, g) := by
  have h1 : get_valid_moves_st g = (get_valid_moves g, g) := by
    unfold get_valid_moves_st
    rw [scan_fold_eq g.current_player g.board allPositions [] []]
    dsimp only
    rw [List.nil_append, List.nil_append]
    rfl
  have h2 : is_game_over_st g = (is_game_over g, g) := by
    unfold is_game_over_st
    rw [h1]
    rfl
  have h3 : get_winner_st g = (get_winner g, g) := by
    unfold get_winner_st
    rw [h2]
    rfl
  exact ⟨h1, h2, h3⟩

/-! ### Witnesses -/

/-- C2 witness: in `state_c1` the Black Man at (4,3) has a capture, so the
mandatory-capture law applies; the returned move ((4,3),[(6,5)]) is a
capture chain and not a simple move. -/
theorem mandatory_capture_law_witness :
    is_capture_move (((4 : Int), (3 : Int)), [((6 : Int), (5 : Int))]) = true ∧
    is_simple_move (((4 : Int), (3 : Int)), [((6 : Int), (5 : Int))]) = false :=
  mandatory_capture_law state_c1 ⟨((4 : Int), (3 : Int)), by decide, by decide, by decide⟩
    (((4 : Int), (3 : Int)), [((6 : Int), (5 : Int))]) (by decide)

/-- C5 witness: applying the opening move ((2,1),[(3,0)]) from the initial
state changes the occupied-square count by its number of capture steps,
which is zero. -/
theorem conservation_witness :
    countPieces (make_move initState (2, 1) [(3, 0)]).board +
        captureStepCount (2, 1) [(3, 0)] = countPieces initState.board :=
  (conservation initState ((2, 1), [(3, 0)]) (by decide) (by decide)).1

/-- C6 witness: a Black Man at (6,2) moving to (7,1) arrives on row 7 as a
Black King (value 2). -/
theorem promotion_witness :
    getCell (make_move state_promo (6, 2) [(7, 1)]).board 7 1 = 2 :=
  (promotion_on_final_row_only state_promo (6, 2) [(7, 1)] (by decide) (by decide)
    (by decide)).trans (by decide)

/-- C8 witness: applying the opening move ((2,1),[(3,2)]) from the initial
state negates `current_player`. -/
theorem make_move_frame_witness :
    (make_move initState (2, 1) [(3, 2)]).current_player = -initState.current_player :=
  (make_move_frame initState ((2, 1), [(3, 2)]) (by decide) (by decide)).1

/-- C9 witness: after the opening move ((2,1),[(3,0)]) from the initial
state the even-parity square (0,0) is still empty. -/
theorem dark_square_invariant_witness :
    getCell (make_move initState (2, 1) [(3, 0)]).board 0 0 = 0 :=
  dark_square_invariant.2 initState (by decide)
    (by unfold dark_squares_only; decide) ((2, 1), [(3, 0)]) (by decide)
    ((0 : Int), (0 : Int)) (by decide) (by decide)

end Checkers
